import Mathlib

/-!
Verification of the geometric core of the map-reader pipeline (mapreader.py).

The source processes one image: it segments the map, orders the corners of
the largest contour, warps the map to an axis-aligned rectangle, segments the
triangular marker, identifies its apex and the midpoint of its base (the
shortest edge), and derives a normalized position and a compass bearing.

Shallow embedding conventions: pixel coordinates are exact rationals (the
contour vertices produced by the extractor are integer pixels, embedded as
integers); Euclidean distances live in the reals via Real.sqrt; the Python
int() conversion on a nonnegative float is truncation toward zero, embedded
as pyInt / pyIntR; Python division on rationals is exact field division.
-/

namespace MapReader

/-- Point in the image plane with exact rational coordinates. -/
abbrev Point := ℚ × ℚ

/-- Python int() applied to an exact rational value: truncation toward zero. -/
def pyInt (q : ℚ) : ℤ := if 0 ≤ q then ⌊q⌋ else ⌈q⌉

/-- Python int() applied to a real value (a float in the source): truncation
toward zero. -/
noncomputable def pyIntR (x : ℝ) : ℤ := if 0 ≤ x then ⌊x⌋ else ⌈x⌉

/-- distance_of_points from mapreader.py lines 128-131:
numpy.sqrt(((a[0]-b[0])**2) + ((a[1]-b[1])**2)). -/
noncomputable def distance_of_points (a b : Point) : ℝ :=
  Real.sqrt (((a.1 - b.1 : ℚ) : ℝ) ^ 2 + ((a.2 - b.2 : ℚ) : ℝ) ^ 2)

/-- get_slope from mapreader.py lines 169-174: if x2 == x1 then x2 is
replaced by x2 + 1, then slope = (y2 - y1) / (x2 - x1). -/
def get_slope (x1 y1 x2 y2 : ℚ) : ℚ :=
  (y2 - y1) / ((if x2 = x1 then x2 + 1 else x2) - x1)

/-- angle_tangent from mapreader.py lines 260-261: the tangent of the angle
between the north line and the pointer line, from their slopes. -/
def angle_tangent_of (north_slope pointer_slope : ℚ) : ℚ :=
  (north_slope - pointer_slope) / (1 + north_slope * pointer_slope)

/-- pointer_dirr from mapreader.py lines 263-264:
math.degrees(abs(math.atan(angle_tangent))). -/
noncomputable def pointer_dirr (t : ℚ) : ℝ :=
  |Real.arctan (t : ℝ)| * (180 / Real.pi)

/-- Quadrant correction of mapreader.py lines 278-284: degrees added to the
unsigned angle, depending on the apex position (xpos, ypos) relative to the
base midpoint (mid_x, mid_y) and on the sign of the tangent. -/
def quadrant_correction (xpos ypos mid_x mid_y : ℤ) (angle_tangent : ℚ) : ℚ :=
  if mid_x > xpos then
    if mid_y < ypos then 180
    else if angle_tangent < 0 then 270
    else 180
  else 0

/-- Full bearing of mapreader.py lines 254-286: the north slope and pointer
slope are built with get_slope exactly as in the main program, combined into
the angle tangent, turned into an unsigned angle in degrees, and then the
quadrant correction is added. The slope values are numpy float64 scalars, so
when the tangent denominator 1 + north_slope * pointer_slope is exactly zero
the division yields plus or minus infinity with the sign of the numerator
(the numerator north_slope - pointer_slope is never zero there, since
north_slope = pointer_slope together with their product being -1 has no real
solution); math.atan of an infinity is exactly plus or minus pi/2 and
math.degrees of pi/2 is exactly 90.0 in double precision, and the sign test
angle_tangent < 0 of the quadrant correction sees the infinity's sign, which
this embedding passes on as a surrogate tangent of -1 or 1. -/
noncomputable def hdg (xpos ypos mid_x mid_y map_width : ℤ) : ℝ :=
  let north_slope :=
    get_slope ((mid_x : ℚ) + 1) ((mid_y : ℚ) + 1) ((mid_x : ℚ) + 1) (map_width : ℚ)
  let pointer_slope := get_slope (xpos : ℚ) (ypos : ℚ) ((mid_x : ℚ) + 1) ((mid_y : ℚ) + 1)
  if 1 + north_slope * pointer_slope = 0 then
    90 + ((quadrant_correction xpos ypos mid_x mid_y
      (if north_slope - pointer_slope < 0 then -1 else 1)) : ℚ)
  else
    pointer_dirr (angle_tangent_of north_slope pointer_slope) +
      ((quadrant_correction xpos ypos mid_x mid_y
        (angle_tangent_of north_slope pointer_slope)) : ℚ)

/-- Position normalization of mapreader.py lines 291-294: the y coordinate is
flipped with ypos = abs(ypos - map_height), then both coordinates are divided
by the map dimensions. -/
def normalize_position (xpos ypos map_width map_height : ℤ) : ℚ × ℚ :=
  ((xpos : ℚ) / (map_width : ℚ), ((|ypos - map_height| : ℤ) : ℚ) / (map_height : ℚ))

/-- Coordinates of an integer pixel as a rational point. -/
def qpt (p : ℤ × ℤ) : Point := ((p.1 : ℚ), (p.2 : ℚ))

/-- Distance between two integer pixels, as computed by distance_of_points in
the main program (lines 225-227). -/
noncomputable def dpts (a b : ℤ × ℤ) : ℝ := distance_of_points (qpt a) (qpt b)

/-- Base midpoint of mapreader.py lines 234-235 and 249-250: the arithmetic
mean of the two base endpoints, converted with int() (truncation). -/
def midpoint_int (a b : ℤ × ℤ) : ℤ × ℤ :=
  (pyInt (((a.1 : ℚ) + (b.1 : ℚ)) / 2), pyInt (((a.2 : ℚ) + (b.2 : ℚ)) / 2))

/-- Apex and base-midpoint selection of mapreader.py lines 225-250: dist1,
dist2, dist3 are the pairwise distances, min_dist their minimum, and the
branch on which distance equals min_dist picks the apex (the vertex not on
that edge) and the midpoint of that edge. The pair returned is
((xpos, ypos), (mid_x, mid_y)). -/
noncomputable def marker_apex_mid (p1 p2 p3 : ℤ × ℤ) : (ℤ × ℤ) × (ℤ × ℤ) :=
  if dpts p1 p2 = min (dpts p1 p2) (min (dpts p1 p3) (dpts p2 p3)) then
    (p3, midpoint_int p1 p2)
  else if dpts p1 p3 = min (dpts p1 p2) (min (dpts p1 p3) (dpts p2 p3)) then
    (p2, midpoint_int p1 p3)
  else
    (p1, midpoint_int p3 p2)

/-- First element of the list attaining the minimal value of f; this is
points[numpy.argmin(values)], since numpy argmin returns the first
occurrence of the minimum. -/
def pickMin (f : Point → ℚ) : List Point → Point
  | [] => (0, 0)
  | [p] => p
  | p :: q :: l => if f (pickMin f (q :: l)) < f p then pickMin f (q :: l) else p

/-- First element of the list attaining the maximal value of f; this is
points[numpy.argmax(values)], since numpy argmax returns the first
occurrence of the maximum. -/
def pickMax (f : Point → ℚ) : List Point → Point
  | [] => (0, 0)
  | [p] => p
  | p :: q :: l => if f p < f (pickMax f (q :: l)) then pickMax f (q :: l) else p

/-- points.sum(axis=1) entry for one row: x + y. -/
def psum (p : Point) : ℚ := p.1 + p.2

/-- numpy.diff(points, axis=1) entry for one row (x, y): y - x. -/
def pdiff (p : Point) : ℚ := p.2 - p.1

/-- order_points from mapreader.py lines 111-122: slot 0 (top-left) is the
point of minimal x + y, slot 2 (bottom-right) the point of maximal x + y,
slot 1 (top-right) the point of minimal numpy.diff value y - x, and slot 3
(bottom-left) the point of maximal y - x. Returned here in list order as
(topLeft, topRight, bottomRight, bottomLeft). -/
def order_points (pts : List Point) : Point × Point × Point × Point :=
  (pickMin psum pts, pickMin pdiff pts, pickMax psum pts, pickMax pdiff pts)

/-- Predicate: p is the strict minimizer of f on l. -/
abbrev strictMinOn (f : Point → ℚ) (l : List Point) (p : Point) : Prop :=
  p ∈ l ∧ ∀ q ∈ l, q ≠ p → f p < f q

/-- Predicate: p is the strict maximizer of f on l. -/
abbrev strictMaxOn (f : Point → ℚ) (l : List Point) (p : Point) : Prop :=
  p ∈ l ∧ ∀ q ∈ l, q ≠ p → f q < f p

/-- Uniform positive scaling by c combined with a translation by (tx, ty). -/
def affineT (c tx ty : ℚ) (p : Point) : Point := (c * p.1 + tx, c * p.2 + ty)

/-- Data determining the perspective warp built by warp_image. -/
structure WarpSpec where
  rectangle : Point × Point × Point × Point
  max_width : ℤ
  max_height : ℤ
  destination : List Point

/-- warp_image from mapreader.py lines 142-163, embedded as the data handed
to the external perspective primitives: the ordered source rectangle
(topLeft, topRight, bottRight, bottLeft), max_width = max(int(width_a),
int(width_b)) with width_a the bottom edge length and width_b the top edge
length, max_height likewise from the right and left edge lengths, and the
destination list [(0,0), (max_width-1,0), (max_width-1,max_height-1),
(0,max_height-1)] given to cv2.getPerspectiveTransform together with the
rectangle (corners correspond by position). The actual pixel resampling is
the library call cv2.warpPerspective and is outside the embedding. -/
noncomputable def warp_image (pts : List Point) : WarpSpec :=
  let rectangle := order_points pts
  let width_a := distance_of_points rectangle.2.2.1 rectangle.2.2.2
  let width_b := distance_of_points rectangle.2.1 rectangle.1
  let max_width := max (pyIntR width_a) (pyIntR width_b)
  let height_a := distance_of_points rectangle.2.1 rectangle.2.2.1
  let height_b := distance_of_points rectangle.1 rectangle.2.2.2
  let max_height := max (pyIntR height_a) (pyIntR height_b)
  { rectangle := rectangle
    max_width := max_width
    max_height := max_height
    destination :=
      [((0 : ℚ), (0 : ℚ)), (((max_width - 1 : ℤ) : ℚ), (0 : ℚ)),
        (((max_width - 1 : ℤ) : ℚ), ((max_height - 1 : ℤ) : ℚ)),
        ((0 : ℚ), ((max_height - 1 : ℤ) : ℚ))] }

/-- Contour: an ordered sequence of integer pixel coordinates. -/
abbrev Contour := List (ℤ × ℤ)

/-- Polygon: a simplified contour, a small list of integer vertices. -/
abbrev Polygon := List (ℤ × ℤ)

/-- The contour-selection loop of find_vertices (mapreader.py lines 90-95):
area_max starts at -1 and big_cntr is unassigned (none); each contour with
area strictly greater than the running maximum replaces it. -/
def big_contour_loop (area : Contour → ℚ) (area_max : ℚ) (big_cntr : Option Contour) :
    List Contour → Option Contour
  | [] => big_cntr
  | c :: rest =>
    if area c > area_max then big_contour_loop area (area c) (some c) rest
    else big_contour_loop area area_max big_cntr rest

/-- find_vertices from mapreader.py lines 84-102, parametrized by the
external primitives cv2.contourArea, cv2.arcLength and cv2.approxPolyDP.
If the selection loop never assigned big_cntr (no contours), the Python
code hits an unbound local variable at cv2.arcLength(big_cntr) and crashes;
that crash is embedded as the result none. Otherwise the largest contour is
approximated with tolerance 0.1 times its perimeter. -/
def find_vertices (area arcLength : Contour → ℚ) (approxPolyDP : Contour → ℚ → Polygon)
    (contours : List Contour) : Option Polygon :=
  match big_contour_loop area (-1) none contours with
  | none => none
  | some big => some (approxPolyDP big (0.1 * arcLength big))

/-- Division bound helper: if 0 ≤ a ≤ b then a / b lies in [0, 1]
(including the degenerate b = 0, where rational division yields 0). -/
theorem div_mem_unit {a b : ℚ} (h0 : 0 ≤ a) (hab : a ≤ b) : 0 ≤ a / b ∧ a / b ≤ 1 := by
  rcases eq_or_lt_of_le (le_trans h0 hab) with hb | hb
  · rw [← hb]
    simp
  · exact ⟨div_nonneg h0 hb.le, (div_le_one hb).mpr hab⟩

/-- C8: distance_of_points is symmetric, and it vanishes exactly when the
two points are equal. -/
theorem distance_of_points_symm_and_zero_iff (a b : Point) :
    distance_of_points a b = distance_of_points b a ∧
      (distance_of_points a b = 0 ↔ a = b) := by
  constructor
  · unfold distance_of_points
    congr 1
    push_cast
    ring
  · unfold distance_of_points
    rw [Real.sqrt_eq_zero']
    constructor
    · intro h
      have hs1 : (0 : ℝ) ≤ ((a.1 - b.1 : ℚ) : ℝ) ^ 2 := sq_nonneg _
      have hs2 : (0 : ℝ) ≤ ((a.2 - b.2 : ℚ) : ℝ) ^ 2 := sq_nonneg _
      have h1 : ((a.1 - b.1 : ℚ) : ℝ) ^ 2 = 0 := by linarith
      have h2 : ((a.2 - b.2 : ℚ) : ℝ) ^ 2 = 0 := by linarith
      have e1 : a.1 = b.1 := by
        have := sq_eq_zero_iff.mp h1
        have : ((a.1 - b.1 : ℚ) : ℝ) = 0 := this
        rw [Rat.cast_eq_zero, sub_eq_zero] at this
        exact this
      have e2 : a.2 = b.2 := by
        have := sq_eq_zero_iff.mp h2
        have : ((a.2 - b.2 : ℚ) : ℝ) = 0 := this
        rw [Rat.cast_eq_zero, sub_eq_zero] at this
        exact this
      exact Prod.ext_iff.mpr ⟨e1, e2⟩
    · intro h
      subst h
      simp

/-- C10: get_slope is total: when x2 = x1 the adjusted denominator is
exactly 1 (never zero for any inputs), and a vertical line is silently
reported as having slope (y2 - y1) / 1. -/
theorem get_slope_total (x1 y1 x2 y2 : ℚ) :
    ((if x2 = x1 then x2 + 1 else x2) - x1 ≠ 0) ∧
      (x2 = x1 → get_slope x1 y1 x2 y2 = (y2 - y1) / 1) := by
  constructor
  · split
    · rename_i h
      rw [h]
      simp
    · rename_i h
      exact sub_ne_zero.mpr h
  · intro h
    unfold get_slope
    rw [if_pos h, h]
    norm_num

/-- Witness for C10 at the concrete vertical segment (2,5)-(2,9). -/
theorem get_slope_total_witness : get_slope 2 5 2 9 = (9 - 5) / 1 :=
  (get_slope_total 2 5 2 9).2 rfl

/-- C6: whenever the apex lies inside the rectified map bounds, the
normalized position equals (x / w, (h - y) / h) and both components lie
in [0, 1]. -/
theorem normalize_position_in_unit (x y w h : ℤ)
    (hx0 : 0 ≤ x) (hxw : x ≤ w) (hy0 : 0 ≤ y) (hyh : y ≤ h) :
    normalize_position x y w h = ((x : ℚ) / (w : ℚ), ((h - y : ℤ) : ℚ) / (h : ℚ)) ∧
      0 ≤ (x : ℚ) / (w : ℚ) ∧ (x : ℚ) / (w : ℚ) ≤ 1 ∧
      0 ≤ ((h - y : ℤ) : ℚ) / (h : ℚ) ∧ ((h - y : ℤ) : ℚ) / (h : ℚ) ≤ 1 := by
  have habs : |y - h| = h - y := by
    rw [abs_of_nonpos (by omega)]
    omega
  have hxq : (0 : ℚ) ≤ (x : ℚ) := by exact_mod_cast hx0
  have hxwq : (x : ℚ) ≤ (w : ℚ) := by exact_mod_cast hxw
  have hyq : (0 : ℚ) ≤ ((h - y : ℤ) : ℚ) := by
    have : (0 : ℤ) ≤ h - y := by omega
    exact_mod_cast this
  have hyhq : ((h - y : ℤ) : ℚ) ≤ (h : ℚ) := by
    have : h - y ≤ h := by omega
    exact_mod_cast this
  obtain ⟨hb1, hb2⟩ := div_mem_unit hxq hxwq
  obtain ⟨hb3, hb4⟩ := div_mem_unit hyq hyhq
  refine ⟨?_, hb1, hb2, hb3, hb4⟩
  unfold normalize_position
  rw [habs]

/-- Witness for C6 at apex (1, 2) inside a 4 x 5 rectified map. -/
theorem normalize_position_in_unit_witness :
    normalize_position 1 2 4 5 = ((1 : ℚ) / (4 : ℚ), ((5 - 2 : ℤ) : ℚ) / (5 : ℚ)) ∧
      0 ≤ (1 : ℚ) / (4 : ℚ) ∧ (1 : ℚ) / (4 : ℚ) ≤ 1 ∧
      0 ≤ ((5 - 2 : ℤ) : ℚ) / (5 : ℚ) ∧ ((5 - 2 : ℤ) : ℚ) / (5 : ℚ) ≤ 1 :=
  normalize_position_in_unit 1 2 4 5 (by decide) (by decide) (by decide) (by decide)

/-- C2: the quadrant correction is exactly 180 when the apex is left of the
midpoint (xpos < mid_x) and above it (mid_y < ypos, reading larger y as
above, which is the comparison the code performs); 270 when the apex is left
and not above with a negative tangent; 180 when the apex is left and not
above otherwise; and 0 when the apex is not left of the midpoint (in
particular when it is to the right). -/
theorem quadrant_correction_cases (xpos ypos mid_x mid_y : ℤ) (t : ℚ) :
    (xpos < mid_x → mid_y < ypos → quadrant_correction xpos ypos mid_x mid_y t = 180) ∧
      (xpos < mid_x → ypos ≤ mid_y → t < 0 →
        quadrant_correction xpos ypos mid_x mid_y t = 270) ∧
      (xpos < mid_x → ypos ≤ mid_y → 0 ≤ t →
        quadrant_correction xpos ypos mid_x mid_y t = 180) ∧
      (mid_x ≤ xpos → quadrant_correction xpos ypos mid_x mid_y t = 0) := by
  unfold quadrant_correction
  refine ⟨?_, ?_, ?_, ?_⟩
  · intro h1 h2
    rw [if_pos h1, if_pos h2]
  · intro h1 h2 h3
    rw [if_pos h1, if_neg (not_lt.mpr h2), if_pos h3]
  · intro h1 h2 h3
    rw [if_pos h1, if_neg (not_lt.mpr h2), if_neg (not_lt.mpr h3)]
  · intro h1
    rw [if_neg (not_lt.mpr h1)]

/-- Witness for C2: apex (0, 5) left of and above midpoint (3, 1) gives a
correction of 180 degrees. -/
theorem quadrant_correction_cases_witness : quadrant_correction 0 5 3 1 7 = 180 :=
  (quadrant_correction_cases 0 5 3 1 7).1 (by decide) (by decide)

/-- C7: on an empty contour list the reference implementation never assigns
big_cntr and crashes with an unbound local variable (embedded as none)
instead of signaling a distinct no-object-found condition. -/
theorem find_vertices_no_contours (area arcLength : Contour → ℚ)
    (approxPolyDP : Contour → ℚ → Polygon) :
    find_vertices area arcLength approxPolyDP [] = none := rfl

/-- pickMin returns an element of a nonempty list. -/
theorem pickMin_mem (f : Point → ℚ) : ∀ l : List Point, l ≠ [] → pickMin f l ∈ l
  | [], h => absurd rfl h
  | [p], _ => by simp [pickMin]
  | p :: q :: l, _ => by
    have ih := pickMin_mem f (q :: l) (by simp)
    simp only [pickMin]
    split
    · exact List.mem_cons_of_mem _ ih
    · exact List.mem_cons_self _ _

/-- pickMax returns an element of a nonempty list. -/
theorem pickMax_mem (f : Point → ℚ) : ∀ l : List Point, l ≠ [] → pickMax f l ∈ l
  | [], h => absurd rfl h
  | [p], _ => by simp [pickMax]
  | p :: q :: l, _ => by
    have ih := pickMax_mem f (q :: l) (by simp)
    simp only [pickMax]
    split
    · exact List.mem_cons_of_mem _ ih
    · exact List.mem_cons_self _ _

/-- pickMin selects the strict minimizer when there is one. -/
theorem pickMin_eq_strict (f : Point → ℚ) :
    ∀ (l : List Point) (p : Point), strictMinOn f l p → pickMin f l = p
  | [], p, h => absurd h.1 (List.not_mem_nil p)
  | [a], p, h => by
    have hpa : p = a := by
      have := h.1
      simp at this
      exact this
    simp [pickMin, hpa]
  | a :: b :: l, p, h => by
    have hmem := pickMin_mem f (b :: l) (by simp)
    simp only [pickMin]
    split
    · rename_i hlt
      by_cases hr : pickMin f (b :: l) = p
      · exact hr
      · exfalso
        have hfp : f p < f (pickMin f (b :: l)) :=
          h.2 _ (List.mem_cons_of_mem _ hmem) hr
        rcases List.mem_cons.mp h.1 with h1 | h1
        · subst h1
          linarith
        · have hsm : strictMinOn f (b :: l) p :=
            ⟨h1, fun q hq hne => h.2 q (List.mem_cons_of_mem _ hq) hne⟩
          exact hr (pickMin_eq_strict f (b :: l) p hsm)
    · rename_i hnlt
      rcases List.mem_cons.mp h.1 with h1 | h1
      · exact h1.symm
      · by_cases hap : a = p
        · exact hap
        · exfalso
          have hsm : strictMinOn f (b :: l) p :=
            ⟨h1, fun q hq hne => h.2 q (List.mem_cons_of_mem _ hq) hne⟩
          have hr := pickMin_eq_strict f (b :: l) p hsm
          have hfa : f p < f a := h.2 a (List.mem_cons_self _ _) hap
          rw [hr] at hnlt
          exact hnlt hfa

/-- pickMax selects the strict maximizer when there is one. -/
theorem pickMax_eq_strict (f : Point → ℚ) :
    ∀ (l : List Point) (p : Point), strictMaxOn f l p → pickMax f l = p
  | [], p, h => absurd h.1 (List.not_mem_nil p)
  | [a], p, h => by
    have hpa : p = a := by
      have := h.1
      simp at this
      exact this
    simp [pickMax, hpa]
  | a :: b :: l, p, h => by
    have hmem := pickMax_mem f (b :: l) (by simp)
    simp only [pickMax]
    split
    · rename_i hlt
      by_cases hr : pickMax f (b :: l) = p
      · exact hr
      · exfalso
        have hfp : f (pickMax f (b :: l)) < f p :=
          h.2 _ (List.mem_cons_of_mem _ hmem) hr
        rcases List.mem_cons.mp h.1 with h1 | h1
        · subst h1
          linarith
        · have hsm : strictMaxOn f (b :: l) p :=
            ⟨h1, fun q hq hne => h.2 q (List.mem_cons_of_mem _ hq) hne⟩
          exact hr (pickMax_eq_strict f (b :: l) p hsm)
    · rename_i hnlt
      rcases List.mem_cons.mp h.1 with h1 | h1
      · exact h1.symm
      · by_cases hap : a = p
        · exact hap
        · exfalso
          have hsm : strictMaxOn f (b :: l) p :=
            ⟨h1, fun q hq hne => h.2 q (List.mem_cons_of_mem _ hq) hne⟩
          have hr := pickMax_eq_strict f (b :: l) p hsm
          have hfa : f a < f p := h.2 a (List.mem_cons_self _ _) hap
          rw [hr] at hnlt
          exact hnlt hfa

/-- pickMin commutes with a pointwise transformation whose composite key
preserves strict comparisons. -/
theorem pickMin_map (T : Point → Point) (f g : Point → ℚ)
    (hfg : ∀ a b : Point, g (T a) < g (T b) ↔ f a < f b) :
    ∀ l : List Point, l ≠ [] → pickMin g (l.map T) = T (pickMin f l)
  | [], h => absurd rfl h
  | [p], _ => by simp [pickMin]
  | p :: q :: l, _ => by
    have ih := pickMin_map T f g hfg (q :: l) (by simp)
    simp only [List.map_cons]
    simp only [pickMin]
    rw [show T q :: l.map T = (q :: l).map T from by simp, ih]
    by_cases hc : f (pickMin f (q :: l)) < f p
    · rw [if_pos ((hfg _ _).mpr hc), if_pos hc]
    · rw [if_neg (fun hx => hc ((hfg _ _).mp hx)), if_neg hc]

/-- pickMax commutes with a pointwise transformation whose composite key
preserves strict comparisons. -/
theorem pickMax_map (T : Point → Point) (f g : Point → ℚ)
    (hfg : ∀ a b : Point, g (T a) < g (T b) ↔ f a < f b) :
    ∀ l : List Point, l ≠ [] → pickMax g (l.map T) = T (pickMax f l)
  | [], h => absurd rfl h
  | [p], _ => by simp [pickMax]
  | p :: q :: l, _ => by
    have ih := pickMax_map T f g hfg (q :: l) (by simp)
    simp only [List.map_cons]
    simp only [pickMax]
    rw [show T q :: l.map T = (q :: l).map T from by simp, ih]
    by_cases hc : f p < f (pickMax f (q :: l))
    · rw [if_pos ((hfg _ _).mpr hc), if_pos hc]
    · rw [if_neg (fun hx => hc ((hfg _ _).mp hx)), if_neg hc]

/-- The sum key x + y transforms monotonically under affineT. -/
theorem psum_affine_iff (c tx ty : ℚ) (hc : 0 < c) (a b : Point) :
    psum (affineT c tx ty a) < psum (affineT c tx ty b) ↔ psum a < psum b := by
  have ha : psum (affineT c tx ty a) = c * psum a + (tx + ty) := by
    unfold psum affineT
    ring
  have hb : psum (affineT c tx ty b) = c * psum b + (tx + ty) := by
    unfold psum affineT
    ring
  rw [ha, hb, add_lt_add_iff_right, mul_lt_mul_left hc]

/-- The difference key y - x transforms monotonically under affineT. -/
theorem pdiff_affine_iff (c tx ty : ℚ) (hc : 0 < c) (a b : Point) :
    pdiff (affineT c tx ty a) < pdiff (affineT c tx ty b) ↔ pdiff a < pdiff b := by
  have ha : pdiff (affineT c tx ty a) = c * pdiff a + (ty - tx) := by
    unfold pdiff affineT
    ring
  have hb : pdiff (affineT c tx ty b) = c * pdiff b + (ty - tx) := by
    unfold pdiff affineT
    ring
  rw [ha, hb, add_lt_add_iff_right, mul_lt_mul_left hc]

/-- C3 counterexample: on the axis-aligned square with corners (0,0), (10,0),
(10,10), (0,10), the point (0,10) strictly minimizes x - y among the four
corners, yet order_points labels (10,0) as top-right, so the claim that the
minimum of x - y is labeled top-right is false on the code. -/
theorem order_points_min_diff_not_top_right :
    (order_points [((0 : ℚ), (0 : ℚ)), (10, 0), (10, 10), (0, 10)]).2.1 =
        ((10 : ℚ), (0 : ℚ)) ∧
      (0 : ℚ) - 10 < 0 - 0 ∧ (0 : ℚ) - 10 < 10 - 0 ∧ (0 : ℚ) - 10 < 10 - 10 ∧
      ((10 : ℚ), (0 : ℚ)) ≠ ((0 : ℚ), (10 : ℚ)) := by
  refine ⟨?_, by norm_num, by norm_num, by norm_num, by norm_num [Prod.ext_iff]⟩
  norm_num [order_points, pickMin, pickMax, psum, pdiff]

/-- C3 amended: order_points labels the strict minimizer of x + y as
top-left and the strict maximizer of x + y as bottom-right, and it labels
the strict minimizer of y - x (equivalently the maximizer of x - y) as
top-right and the strict maximizer of y - x (the minimizer of x - y) as
bottom-left. -/
theorem order_points_labels (pts : List Point) (tl tr br bl : Point)
    (htl : strictMinOn psum pts tl) (htr : strictMinOn pdiff pts tr)
    (hbr : strictMaxOn psum pts br) (hbl : strictMaxOn pdiff pts bl) :
    order_points pts = (tl, tr, br, bl) := by
  unfold order_points
  rw [pickMin_eq_strict psum pts tl htl, pickMin_eq_strict pdiff pts tr htr,
    pickMax_eq_strict psum pts br hbr, pickMax_eq_strict pdiff pts bl hbl]

/-- Witness for the amended C3 on the axis-aligned square. -/
theorem order_points_labels_witness :
    order_points [((0 : ℚ), (0 : ℚ)), (10, 0), (10, 10), (0, 10)] =
      (((0 : ℚ), (0 : ℚ)), ((10 : ℚ), (0 : ℚ)), ((10 : ℚ), (10 : ℚ)),
        ((0 : ℚ), (10 : ℚ))) :=
  order_points_labels _ _ _ _ _
    (by
      norm_num [strictMinOn, psum, Prod.ext_iff]
      rintro a b (⟨rfl, rfl⟩ | ⟨rfl, rfl⟩ | ⟨rfl, rfl⟩ | ⟨rfl, rfl⟩) h <;>
        first
          | exact absurd rfl (h rfl)
          | norm_num)
    (by
      norm_num [strictMinOn, pdiff, Prod.ext_iff]
      rintro a b (⟨rfl, rfl⟩ | ⟨rfl, rfl⟩ | ⟨rfl, rfl⟩ | ⟨rfl, rfl⟩) h <;>
        first
          | exact absurd rfl (h rfl)
          | norm_num)
    (by
      norm_num [strictMaxOn, psum, Prod.ext_iff]
      rintro a b (⟨rfl, rfl⟩ | ⟨rfl, rfl⟩ | ⟨rfl, rfl⟩ | ⟨rfl, rfl⟩) h <;>
        first
          | exact absurd rfl (h rfl)
          | norm_num)
    (by
      norm_num [strictMaxOn, pdiff, Prod.ext_iff]
      rintro a b (⟨rfl, rfl⟩ | ⟨rfl, rfl⟩ | ⟨rfl, rfl⟩ | ⟨rfl, rfl⟩) h <;>
        first
          | exact absurd rfl (h rfl)
          | norm_num)

/-- C4 counterexample: the diamond (1,0), (2,1), (1,2), (0,1) is a convex
quadrilateral on which x + y attains its minimum twice; listing it in two
different orders (a permutation of the same four points) makes order_points
return different labeled tuples, so the claimed unconditional permutation
invariance is false on the code. -/
theorem order_points_perm_sensitive :
    List.Perm [((2 : ℚ), (1 : ℚ)), (1, 0), (1, 2), (0, 1)]
        [((1 : ℚ), (0 : ℚ)), (2, 1), (1, 2), (0, 1)] ∧
      order_points [((2 : ℚ), (1 : ℚ)), (1, 0), (1, 2), (0, 1)] ≠
        order_points [((1 : ℚ), (0 : ℚ)), (2, 1), (1, 2), (0, 1)] := by
  constructor
  · exact List.Perm.swap _ _ _
  · norm_num [order_points, pickMin, pickMax, psum, pdiff, Prod.ext_iff]

/-- C4 amended: when each of the two keys x + y and y - x has a strict
(unique) minimizer and maximizer on the list of points, order_points is
invariant under any permutation of the input list; and for every nonempty
list of points (ties included) the labeling is preserved by every uniform
positive scaling combined with a translation, in the sense that each label
of the transformed points is the transform of the correspondingly labeled
original point. -/
theorem order_points_invariant (pts pts2 : List Point) (c tx ty : ℚ)
    (hne : pts ≠ []) (hc : 0 < c) :
    (List.Perm pts2 pts →
      (∃ p ∈ pts, strictMinOn psum pts p) →
      (∃ p ∈ pts, strictMaxOn psum pts p) →
      (∃ p ∈ pts, strictMinOn pdiff pts p) →
      (∃ p ∈ pts, strictMaxOn pdiff pts p) →
      order_points pts2 = order_points pts) ∧
      order_points (pts.map (affineT c tx ty)) =
        (affineT c tx ty (order_points pts).1,
          affineT c tx ty (order_points pts).2.1,
          affineT c tx ty (order_points pts).2.2.1,
          affineT c tx ty (order_points pts).2.2.2) := by
  constructor
  · intro hperm h1 h2 h3 h4
    obtain ⟨ptl, _, htl⟩ := h1
    obtain ⟨pbr, _, hbr⟩ := h2
    obtain ⟨ptr, _, htr⟩ := h3
    obtain ⟨pbl, _, hbl⟩ := h4
    have htl2 : strictMinOn psum pts2 ptl :=
      ⟨hperm.mem_iff.mpr htl.1, fun q hq hq2 => htl.2 q (hperm.mem_iff.mp hq) hq2⟩
    have hbr2 : strictMaxOn psum pts2 pbr :=
      ⟨hperm.mem_iff.mpr hbr.1, fun q hq hq2 => hbr.2 q (hperm.mem_iff.mp hq) hq2⟩
    have htr2 : strictMinOn pdiff pts2 ptr :=
      ⟨hperm.mem_iff.mpr htr.1, fun q hq hq2 => htr.2 q (hperm.mem_iff.mp hq) hq2⟩
    have hbl2 : strictMaxOn pdiff pts2 pbl :=
      ⟨hperm.mem_iff.mpr hbl.1, fun q hq hq2 => hbl.2 q (hperm.mem_iff.mp hq) hq2⟩
    unfold order_points
    rw [pickMin_eq_strict psum pts2 ptl htl2, pickMin_eq_strict psum pts ptl htl,
      pickMin_eq_strict pdiff pts2 ptr htr2, pickMin_eq_strict pdiff pts ptr htr,
      pickMax_eq_strict psum pts2 pbr hbr2, pickMax_eq_strict psum pts pbr hbr,
      pickMax_eq_strict pdiff pts2 pbl hbl2, pickMax_eq_strict pdiff pts pbl hbl]
  · unfold order_points
    rw [pickMin_map (affineT c tx ty) psum psum
        (fun a b => psum_affine_iff c tx ty hc a b) pts hne,
      pickMin_map (affineT c tx ty) pdiff pdiff
        (fun a b => pdiff_affine_iff c tx ty hc a b) pts hne,
      pickMax_map (affineT c tx ty) psum psum
        (fun a b => psum_affine_iff c tx ty hc a b) pts hne,
      pickMax_map (affineT c tx ty) pdiff pdiff
        (fun a b => pdiff_affine_iff c tx ty hc a b) pts hne]

/-- Witness for the amended C4 on a rectangle with unique key extrema,
permuted by swapping the first two points, and transformed by scaling with
factor 2 and translating by (1, 1). -/
theorem order_points_invariant_witness :
    order_points [((3 : ℚ), (0 : ℚ)), (0, 0), (3, 1), (0, 1)] =
        order_points [((0 : ℚ), (0 : ℚ)), (3, 0), (3, 1), (0, 1)] ∧
      order_points ([((0 : ℚ), (0 : ℚ)), (3, 0), (3, 1), (0, 1)].map (affineT 2 1 1)) =
        (affineT 2 1 1 (order_points [((0 : ℚ), (0 : ℚ)), (3, 0), (3, 1), (0, 1)]).1,
          affineT 2 1 1 (order_points [((0 : ℚ), (0 : ℚ)), (3, 0), (3, 1), (0, 1)]).2.1,
          affineT 2 1 1 (order_points [((0 : ℚ), (0 : ℚ)), (3, 0), (3, 1), (0, 1)]).2.2.1,
          affineT 2 1 1 (order_points [((0 : ℚ), (0 : ℚ)), (3, 0), (3, 1), (0, 1)]).2.2.2) :=
  by
  have h := order_points_invariant [((0 : ℚ), (0 : ℚ)), (3, 0), (3, 1), (0, 1)]
    [((3 : ℚ), (0 : ℚ)), (0, 0), (3, 1), (0, 1)] 2 1 1 (by simp) (by norm_num)
  refine ⟨h.1 (List.Perm.swap _ _ _) ?_ ?_ ?_ ?_, h.2⟩
  · exact ⟨((0 : ℚ), (0 : ℚ)), by norm_num, by
      norm_num [strictMinOn, psum, Prod.ext_iff]
      rintro a b (⟨rfl, rfl⟩ | ⟨rfl, rfl⟩ | ⟨rfl, rfl⟩ | ⟨rfl, rfl⟩) hq <;>
        first
          | exact absurd rfl (hq rfl)
          | norm_num⟩
  · exact ⟨((3 : ℚ), (1 : ℚ)), by norm_num, by
      norm_num [strictMaxOn, psum, Prod.ext_iff]
      rintro a b (⟨rfl, rfl⟩ | ⟨rfl, rfl⟩ | ⟨rfl, rfl⟩ | ⟨rfl, rfl⟩) hq <;>
        first
          | exact absurd rfl (hq rfl)
          | norm_num⟩
  · exact ⟨((3 : ℚ), (0 : ℚ)), by norm_num, by
      norm_num [strictMinOn, pdiff, Prod.ext_iff]
      rintro a b (⟨rfl, rfl⟩ | ⟨rfl, rfl⟩ | ⟨rfl, rfl⟩ | ⟨rfl, rfl⟩) hq <;>
        first
          | exact absurd rfl (hq rfl)
          | norm_num⟩
  · exact ⟨((0 : ℚ), (1 : ℚ)), by norm_num, by
      norm_num [strictMaxOn, pdiff, Prod.ext_iff]
      rintro a b (⟨rfl, rfl⟩ | ⟨rfl, rfl⟩ | ⟨rfl, rfl⟩ | ⟨rfl, rfl⟩) hq <;>
        first
          | exact absurd rfl (hq rfl)
          | norm_num⟩

/-- The unsigned angle in degrees is always in [0, 90). -/
theorem pointer_dirr_bounds (t : ℚ) : 0 ≤ pointer_dirr t ∧ pointer_dirr t < 90 := by
  unfold pointer_dirr
  have hpi : (0 : ℝ) < Real.pi := Real.pi_pos
  constructor
  · apply mul_nonneg (abs_nonneg _)
    positivity
  · have h1 : |Real.arctan (t : ℝ)| < Real.pi / 2 :=
      abs_lt.mpr ⟨Real.neg_pi_div_two_lt_arctan _, Real.arctan_lt_pi_div_two _⟩
    have h2 : (0 : ℝ) < 180 / Real.pi := by positivity
    have h3 : |Real.arctan (t : ℝ)| * (180 / Real.pi) <
        Real.pi / 2 * (180 / Real.pi) := mul_lt_mul_of_pos_right h1 h2
    have h4 : Real.pi / 2 * (180 / Real.pi) = 90 := by
      have hne : Real.pi ≠ 0 := Real.pi_ne_zero
      field_simp
      ring
    rw [h4] at h3
    exact h3

/-- The quadrant correction takes only the values 0, 180 and 270. -/
theorem quadrant_correction_mem (xpos ypos mid_x mid_y : ℤ) (t : ℚ) :
    quadrant_correction xpos ypos mid_x mid_y t = 0 ∨
      quadrant_correction xpos ypos mid_x mid_y t = 180 ∨
      quadrant_correction xpos ypos mid_x mid_y t = 270 := by
  unfold quadrant_correction
  split_ifs <;> simp

/-- Adding a correction of 0, 180 or 270 to an angle in [0, 90) lands in
[0, 90) or [180, 360). -/
theorem bearing_aux (t c : ℚ) (hc : c = 0 ∨ c = 180 ∨ c = 270) :
    (0 ≤ pointer_dirr t + (c : ℝ) ∧ pointer_dirr t + (c : ℝ) < 90) ∨
      (180 ≤ pointer_dirr t + (c : ℝ) ∧ pointer_dirr t + (c : ℝ) < 360) := by
  obtain ⟨h0, h90⟩ := pointer_dirr_bounds t
  rcases hc with rfl | rfl | rfl
  · left
    constructor <;> push_cast <;> linarith
  · right
    constructor <;> push_cast <;> linarith
  · right
    constructor <;> push_cast <;> linarith

/-- C9 counterexample: for the reachable configuration apex (0, 2), base
midpoint (0, 0) and map width 2 the slopes are north_slope = 1 and
pointer_slope = -1, so the float tangent denominator 1 + 1 * (-1) is exactly
zero; the numpy division yields +infinity, atan gives exactly pi/2, the
correction adds 0 (the apex is not left of the midpoint), and the program
prints BEARING 90.0, which lies inside the claimed-forbidden band [90, 180). -/
theorem bearing_ninety :
    hdg 0 2 0 0 2 = 90 ∧
      ¬((0 ≤ hdg 0 2 0 0 2 ∧ hdg 0 2 0 0 2 < 90) ∨
        (180 ≤ hdg 0 2 0 0 2 ∧ hdg 0 2 0 0 2 < 360)) := by
  have h : hdg 0 2 0 0 2 = 90 := by
    norm_num [hdg, get_slope, quadrant_correction]
  refine ⟨h, ?_⟩
  rw [h]
  intro hcon
  rcases hcon with ⟨h1, h2⟩ | ⟨h1, h2⟩ <;> linarith

/-- C9 amended: for every input reaching the bearing computation whose
slopes keep the tangent denominator 1 + north_slope * pointer_slope nonzero,
the unsigned angle degrees(abs(atan t)) is nonnegative and strictly below 90
(for every tangent t), the quadrant correction only ever adds 0, 180 or 270
(never 90), and the bearing lies in [0, 90) union [180, 360) and never in
[90, 180); at the excluded degenerate inputs the float quotient is an
infinity, the unsigned angle is exactly 90 degrees, and the printed bearing
can be 90.0 or 360.0. -/
theorem bearing_range (xpos ypos mid_x mid_y map_width : ℤ) (t : ℚ)
    (hden : 1 +
        get_slope ((mid_x : ℚ) + 1) ((mid_y : ℚ) + 1) ((mid_x : ℚ) + 1) (map_width : ℚ) *
          get_slope (xpos : ℚ) (ypos : ℚ) ((mid_x : ℚ) + 1) ((mid_y : ℚ) + 1) ≠ 0) :
    (0 ≤ pointer_dirr t ∧ pointer_dirr t < 90) ∧
      (quadrant_correction xpos ypos mid_x mid_y t = 0 ∨
        quadrant_correction xpos ypos mid_x mid_y t = 180 ∨
        quadrant_correction xpos ypos mid_x mid_y t = 270) ∧
      ((0 ≤ hdg xpos ypos mid_x mid_y map_width ∧
          hdg xpos ypos mid_x mid_y map_width < 90) ∨
        (180 ≤ hdg xpos ypos mid_x mid_y map_width ∧
          hdg xpos ypos mid_x mid_y map_width < 360)) := by
  refine ⟨pointer_dirr_bounds t, quadrant_correction_mem xpos ypos mid_x mid_y t, ?_⟩
  simp only [hdg]
  rw [if_neg hden]
  exact bearing_aux _ _ (quadrant_correction_mem xpos ypos mid_x mid_y _)

/-- Witness for the amended C9 at apex (0, 0), base midpoint (2, 2) and map
width 5, where north_slope = 2, pointer_slope = 1 and the tangent
denominator is 3. -/
theorem bearing_range_witness :
    (0 ≤ pointer_dirr 1 ∧ pointer_dirr 1 < 90) ∧
      (quadrant_correction 0 0 2 2 1 = 0 ∨ quadrant_correction 0 0 2 2 1 = 180 ∨
        quadrant_correction 0 0 2 2 1 = 270) ∧
      ((0 ≤ hdg 0 0 2 2 5 ∧ hdg 0 0 2 2 5 < 90) ∨
        (180 ≤ hdg 0 0 2 2 5 ∧ hdg 0 0 2 2 5 < 360)) :=
  bearing_range 0 0 2 2 5 1 (by norm_num [get_slope])

/-- C1: the apex returned by the marker resolver is the vertex opposite a
base pair {a, b} of triangle vertices whose edge length is minimal among the
three pairwise distances, and the returned midpoint is the truncated
arithmetic mean of the two base endpoints. -/
theorem marker_base_apex (p1 p2 p3 : ℤ × ℤ) :
    ∃ a b : ℤ × ℤ,
      ({a, b, (marker_apex_mid p1 p2 p3).1} : Multiset (ℤ × ℤ)) = {p1, p2, p3} ∧
        dpts a b ≤ dpts p1 p2 ∧ dpts a b ≤ dpts p1 p3 ∧ dpts a b ≤ dpts p2 p3 ∧
        (marker_apex_mid p1 p2 p3).2 = midpoint_int a b := by
  by_cases h1 : dpts p1 p2 = min (dpts p1 p2) (min (dpts p1 p3) (dpts p2 p3))
  · have e : marker_apex_mid p1 p2 p3 = (p3, midpoint_int p1 p2) := by
      unfold marker_apex_mid
      rw [if_pos h1]
    refine ⟨p1, p2, ?_, le_refl _, ?_, ?_, ?_⟩
    · rw [e]
    · rw [h1]
      exact le_trans (min_le_right _ _) (min_le_left _ _)
    · rw [h1]
      exact le_trans (min_le_right _ _) (min_le_right _ _)
    · rw [e]
  · by_cases h2 : dpts p1 p3 = min (dpts p1 p2) (min (dpts p1 p3) (dpts p2 p3))
    · have e : marker_apex_mid p1 p2 p3 = (p2, midpoint_int p1 p3) := by
        unfold marker_apex_mid
        rw [if_neg h1, if_pos h2]
      refine ⟨p1, p3, ?_, ?_, le_refl _, ?_, ?_⟩
      · rw [e]
        change p1 ::ₘ p3 ::ₘ p2 ::ₘ 0 = p1 ::ₘ p2 ::ₘ p3 ::ₘ 0
        exact congrArg (fun s => p1 ::ₘ s) (Multiset.cons_swap p3 p2 0)
      · rw [h2]
        exact min_le_left _ _
      · rw [h2]
        exact le_trans (min_le_right _ _) (min_le_right _ _)
      · rw [e]
    · have h3 : dpts p2 p3 = min (dpts p1 p2) (min (dpts p1 p3) (dpts p2 p3)) := by
        rcases min_choice (dpts p1 p2) (min (dpts p1 p3) (dpts p2 p3)) with hq | hq
        · exact absurd hq.symm h1
        · rcases min_choice (dpts p1 p3) (dpts p2 p3) with hr | hr
          · exact absurd (hq.trans hr).symm h2
          · exact (hq.trans hr).symm
      have e : marker_apex_mid p1 p2 p3 = (p1, midpoint_int p3 p2) := by
        unfold marker_apex_mid
        rw [if_neg h1, if_neg h2]
      refine ⟨p2, p3, ?_, ?_, ?_, le_refl _, ?_⟩
      · rw [e]
        change p2 ::ₘ p3 ::ₘ p1 ::ₘ 0 = p1 ::ₘ p2 ::ₘ p3 ::ₘ 0
        calc p2 ::ₘ p3 ::ₘ p1 ::ₘ 0
            = p2 ::ₘ p1 ::ₘ p3 ::ₘ 0 := congrArg (fun s => p2 ::ₘ s) (Multiset.cons_swap p3 p1 0)
          _ = p1 ::ₘ p2 ::ₘ p3 ::ₘ 0 := Multiset.cons_swap p2 p1 _
      · rw [h3]
        exact min_le_left _ _
      · rw [h3]
        exact le_trans (min_le_right _ _) (min_le_left _ _)
      · rw [e]
        simp [midpoint_int, add_comm]

/-- C5 counterexample: on the quadrilateral (0,0), (3,1), (3,4), (0,3) both
the top and bottom edges have Euclidean length sqrt 10, yet the computed
output width is 3 = floor(sqrt 10), not the larger Euclidean length itself,
so the claim that the width equals the larger of the two Euclidean lengths
is false on the code (int() truncates each length). -/
theorem warp_width_not_euclidean :
    ((warp_image [((0 : ℚ), (0 : ℚ)), (3, 1), (3, 4), (0, 3)]).max_width : ℝ) ≠
      max (distance_of_points ((3 : ℚ), (4 : ℚ)) ((0 : ℚ), (3 : ℚ)))
        (distance_of_points ((3 : ℚ), (1 : ℚ)) ((0 : ℚ), (0 : ℚ))) := by
  have hop : order_points [((0 : ℚ), (0 : ℚ)), (3, 1), (3, 4), (0, 3)] =
      (((0 : ℚ), (0 : ℚ)), ((3 : ℚ), (1 : ℚ)), ((3 : ℚ), (4 : ℚ)), ((0 : ℚ), (3 : ℚ))) := by
    norm_num [order_points, pickMin, pickMax, psum, pdiff]
  have hd1 : distance_of_points ((3 : ℚ), (4 : ℚ)) ((0 : ℚ), (3 : ℚ)) = Real.sqrt 10 := by
    unfold distance_of_points
    norm_num
  have hd2 : distance_of_points ((3 : ℚ), (1 : ℚ)) ((0 : ℚ), (0 : ℚ)) = Real.sqrt 10 := by
    unfold distance_of_points
    norm_num
  have hsq : Real.sqrt 10 * Real.sqrt 10 = 10 := Real.mul_self_sqrt (by norm_num)
  have h3 : (3 : ℝ) ≤ Real.sqrt 10 := by
    rw [show (3 : ℝ) = Real.sqrt 9 from by
      rw [show (9 : ℝ) = 3 ^ 2 by norm_num, Real.sqrt_sq (by norm_num)]]
    exact Real.sqrt_le_sqrt (by norm_num)
  have h4 : Real.sqrt 10 < 4 := by
    rw [show (4 : ℝ) = Real.sqrt 16 from by
      rw [show (16 : ℝ) = 4 ^ 2 by norm_num, Real.sqrt_sq (by norm_num)]]
    exact Real.sqrt_lt_sqrt (by norm_num) (by norm_num)
  have hfloor10 : pyIntR (Real.sqrt 10) = 3 := by
    unfold pyIntR
    rw [if_pos (Real.sqrt_nonneg _), Int.floor_eq_iff]
    constructor
    · exact_mod_cast h3
    · push_cast
      linarith
  have hw : (warp_image [((0 : ℚ), (0 : ℚ)), (3, 1), (3, 4), (0, 3)]).max_width = 3 := by
    simp only [warp_image, hop]
    rw [hd1, hd2, hfloor10, max_self]
  rw [hw, hd1, hd2, max_self]
  intro hEq
  have hcontra : ((3 : ℤ) : ℝ) * ((3 : ℤ) : ℝ) = 10 := by
    rw [hEq]
    exact hsq
  push_cast at hcontra
  norm_num at hcontra

/-- C5 amended: the output width is the larger of the floors (Python int
truncation) of the Euclidean lengths of the bottom and top edges, the output
height is the larger of the floors of the right and left edge lengths, and
the perspective solve is handed the ordered source corners (topLeft,
topRight, bottomRight, bottomLeft) paired positionally with the destination
rectangle [(0,0), (w-1,0), (w-1,h-1), (0,h-1)]. -/
theorem warp_image_spec (pts : List Point) :
    (warp_image pts).rectangle = order_points pts ∧
      (warp_image pts).max_width =
        max ⌊distance_of_points (order_points pts).2.2.1 (order_points pts).2.2.2⌋
          ⌊distance_of_points (order_points pts).2.1 (order_points pts).1⌋ ∧
      (warp_image pts).max_height =
        max ⌊distance_of_points (order_points pts).2.1 (order_points pts).2.2.1⌋
          ⌊distance_of_points (order_points pts).1 (order_points pts).2.2.2⌋ ∧
      (warp_image pts).destination =
        [((0 : ℚ), (0 : ℚ)), ((((warp_image pts).max_width - 1 : ℤ) : ℚ), (0 : ℚ)),
          ((((warp_image pts).max_width - 1 : ℤ) : ℚ),
            (((warp_image pts).max_height - 1 : ℤ) : ℚ)),
          ((0 : ℚ), (((warp_image pts).max_height - 1 : ℤ) : ℚ))] := by
  have hfloor : ∀ a b : Point,
      pyIntR (distance_of_points a b) = ⌊distance_of_points a b⌋ := by
    intro a b
    have hnn : (0 : ℝ) ≤ distance_of_points a b := Real.sqrt_nonneg _
    unfold pyIntR
    rw [if_pos hnn]
  simp [warp_image, hfloor]

end MapReader
